import Mathlib

/-!
Verification of the tap-miner game server round logic (server.js).

The server keeps a single mutable record `gameState` with fields
`isActive`, `players` (a JS `Map` from player id to display name),
`hashes` (the append-only submission array) and `startTime`.  We embed
that record as `GameState`, the JS `Map` as an association list with the
`Map` operations (`get`, `set`, `delete`, `size`), and each handler
(`startNewGame`, `endGame`, the `tap` and `join` message cases, the
`close` handler) as a pure function from the state to the new state
paired with the list of events it broadcasts.  `Array.prototype.sort`
with the comparator `(a, b) => a.timestamp - b.timestamp` is a stable
sort by timestamp (ES2019), embedded as `List.insertionSort`.  The
sha256 digest is an external primitive and is passed in as an opaque
function argument.
-/

namespace TapMiner

/-- One entry of `gameState.hashes`, as pushed by the `tap` handler:
submitter id, the roster name looked up at submission time (which is
absent when the submitter never joined), the digest, the server
timestamp and the client-reported tap count. -/
structure Submission where
  playerId : String
  playerName : Option String
  hash : String
  timestamp : Nat
  tapCount : Nat
deriving Repr, DecidableEq

/-- The mutable `gameState` record of server.js. -/
structure GameState where
  isActive : Bool
  players : List (String × String)
  hashes : List Submission
  startTime : Option Nat
deriving Repr, DecidableEq

/-- JS `Map.prototype.get`: the value bound to the key, if present. -/
def mapGet : List (String × String) → String → Option String
  | [], _ => none
  | (k, v) :: rest, key => if k = key then some v else mapGet rest key

/-- JS `Map.prototype.set`: overwrite in place if the key is present,
else append (a JS `Map` keeps insertion order and unique keys). -/
def mapSet : List (String × String) → String → String → List (String × String)
  | [], key, value => [(key, value)]
  | (k, v) :: rest, key, value =>
      if k = key then (key, value) :: rest else (k, v) :: mapSet rest key value

/-- JS `Map.prototype.delete`: remove the entry with the key, if any. -/
def mapDelete : List (String × String) → String → List (String × String)
  | [], _ => []
  | (k, v) :: rest, key => if k = key then rest else (k, v) :: mapDelete rest key

/-- `countLeadingZeros` of server.js: walk the string from index 0 and
return the index of the first character different from the zero
character; when the loop falls through, return the string's length
(which is the final index value). -/
def countLeadingZerosAux : List Char → Nat → Nat
  | [], i => i
  | c :: rest, i => if c ≠ '0' then i else countLeadingZerosAux rest (i + 1)

/-- `countLeadingZeros(hash)` of server.js. -/
def countLeadingZeros (hash : String) : Nat :=
  countLeadingZerosAux hash.data 0

/-- The winner object put on the `gameEnd` broadcast: note that
`playerName` comes from `gameState.players.get(winner.playerId)` at
round end, and `leadingZeros` is the final `maxZeros` accumulator. -/
structure WinnerInfo where
  playerId : String
  playerName : Option String
  hash : String
  leadingZeros : Int
deriving Repr, DecidableEq

/-- The outbound events the handlers produce. -/
inductive Event where
  | gameStart (startTime : Nat)
  | joined (playerId : String) (gameActive : Bool) (startTime : Option Nat) (duration : Nat)
  | playerJoined (playerId : String) (playerName : String) (playerCount : Nat)
  | playerLeft (playerId : String) (playerCount : Nat)
  | newHash (playerId : String) (playerName : Option String) (hash : String) (leadingZeros : Nat)
  | gameEnd (winner : Option WinnerInfo) (allHashes : List Submission)
deriving Repr, DecidableEq

/-- `gameState.duration`: two minutes in milliseconds. -/
def duration : Nat := 120000

instance : DecidableRel (fun (a b : Submission) => a.timestamp ≤ b.timestamp) :=
  fun a b => Nat.decLe a.timestamp b.timestamp

instance : IsTotal Submission (fun a b => a.timestamp ≤ b.timestamp) :=
  ⟨fun a b => Nat.le_total a.timestamp b.timestamp⟩

instance : IsTrans Submission (fun a b => a.timestamp ≤ b.timestamp) :=
  ⟨fun _ _ _ h h2 => Nat.le_trans h h2⟩

/-- `gameState.hashes.sort((a, b) => a.timestamp - b.timestamp)`:
a stable sort by timestamp ascending. -/
def sortByTimestamp (l : List Submission) : List Submission :=
  List.insertionSort (fun a b => a.timestamp ≤ b.timestamp) l

/-- The leading-zero count of a submission's digest, as an integer
(the `maxZeros` accumulator starts at `-1`). -/
def zerosI (s : Submission) : Int := (countLeadingZeros s.hash : Int)

/-- One iteration of the winner loop in `endGame`: update the pair
`(winner, maxZeros)` when the entry's count is strictly greater. -/
def winnerStep (acc : Option Submission × Int) (h : Submission) : Option Submission × Int :=
  if zerosI h > acc.2 then (some h, zerosI h) else acc

/-- The winner loop of `endGame`, started from `(null, -1)`. -/
def findWinner (hashes : List Submission) : Option Submission × Int :=
  hashes.foldl winnerStep (none, -1)

/-- The winner object built in the `gameEnd` broadcast of `endGame`:
the display name is looked up in the current roster. -/
def winnerInfo (players : List (String × String)) (w : Submission) (maxZeros : Int) : WinnerInfo :=
  { playerId := w.playerId
    playerName := mapGet players w.playerId
    hash := w.hash
    leadingZeros := maxZeros }

/-- `endGame()` of server.js: clear the active flag, sort the
submissions by timestamp, run the winner loop, and broadcast `gameEnd`
with the winner (or null) and the sorted array.  The 10 s timer that
re-invokes `startNewGame` is external scheduling and not part of the
state transition. -/
def endGame (st : GameState) : GameState × List Event :=
  let sorted := sortByTimestamp st.hashes
  let wz := findWinner sorted
  ({ st with isActive := false, hashes := sorted },
   [Event.gameEnd (wz.1.map (fun w => winnerInfo st.players w wz.2)) sorted])

/-- `startNewGame()` of server.js: unconditionally set the active flag,
clear the roster and the submission array, stamp the start time, and
broadcast `gameStart`.  The 120 s end-of-round timer is external
scheduling and not part of the state transition. -/
def startNewGame (_st : GameState) (now : Nat) : GameState × List Event :=
  ({ isActive := true, players := [], hashes := [], startTime := some now },
   [Event.gameStart now])

/-- The `tap` message case of server.js: gated on `gameState.isActive`;
when active, compute the digest of the concatenation of player id,
timestamp and tap count (`sha256hex` is the external sha256-to-hex
primitive), push the submission, and broadcast `newHash`. -/
def submitTap (st : GameState) (playerId : String) (tapCount : Nat) (now : Nat)
    (sha256hex : String → String) : GameState × List Event :=
  if st.isActive then
    let hash := sha256hex (playerId ++ toString now ++ toString tapCount)
    let sub : Submission :=
      { playerId := playerId
        playerName := mapGet st.players playerId
        hash := hash
        timestamp := now
        tapCount := tapCount }
    ({ st with hashes := st.hashes ++ [sub] },
     [Event.newHash playerId (mapGet st.players playerId) hash (countLeadingZeros hash)])
  else (st, [])

/-- The `join` message case of server.js: set the roster entry, reply
`joined` to the sender and broadcast `playerJoined` with the new size. -/
def joinPlayer (st : GameState) (playerId : String) (playerName : String) :
    GameState × List Event :=
  let players := mapSet st.players playerId playerName
  ({ st with players := players },
   [Event.joined playerId st.isActive st.startTime duration,
    Event.playerJoined playerId playerName players.length])

/-- The `close` handler of server.js: delete the roster entry (if any)
and unconditionally broadcast `playerLeft` with the new size. -/
def removePlayer (st : GameState) (playerId : String) : GameState × List Event :=
  let players := mapDelete st.players playerId
  ({ st with players := players },
   [Event.playerLeft playerId players.length])

/-- The running maximum of leading-zero counts over a list, extending
an initial accumulator value. -/
def maxI (m : Int) (l : List Submission) : Int :=
  l.foldl (fun acc h => max acc (zerosI h)) m

/-- The maximum leading-zero count of a submission list (`-1` when
empty), matching the `maxZeros` accumulator's range. -/
def maxZerosOf (l : List Submission) : Int := maxI (-1) l

/-- Spec-side description of the winner rule, written from the spec's
words: the first submission (in sequence order) whose leading-zero
count equals the maximum count of the whole sequence, so ties favor
the earliest submission reaching that score. -/
def specFirstMaxWinner (l : List Submission) : Option Submission :=
  l.find? (fun h => zerosI h == maxZerosOf l)

theorem countLeadingZerosAux_eq (cs : List Char) :
    ∀ i : Nat, countLeadingZerosAux cs i = i + cs.findIdx (fun c => c != '0') := by
  induction cs with
  | nil => intro i; simp [countLeadingZerosAux]
  | cons c rest ih =>
    intro i
    by_cases h : c = '0'
    · subst h
      simp only [countLeadingZerosAux, List.findIdx_cons]
      norm_num [ih]
      omega
    · have hb : (c != '0') = true := bne_iff_ne.mpr h
      simp [countLeadingZerosAux, List.findIdx_cons, h, hb]

theorem le_maxI (l : List Submission) : ∀ m : Int, m ≤ maxI m l := by
  induction l with
  | nil => intro m; simp [maxI]
  | cons h t ih =>
    intro m
    have h1 : m ≤ max m (zerosI h) := le_max_left _ _
    have h2 : max m (zerosI h) ≤ maxI (max m (zerosI h)) t := ih _
    calc m ≤ max m (zerosI h) := h1
      _ ≤ maxI (max m (zerosI h)) t := h2
      _ = maxI m (h :: t) := rfl

theorem maxI_of_all_le (l : List Submission) :
    ∀ m : Int, (∀ x ∈ l, zerosI x ≤ m) → maxI m l = m := by
  induction l with
  | nil => intro m _; simp [maxI]
  | cons h t ih =>
    intro m hall
    have hh : zerosI h ≤ m := hall h (List.mem_cons_self _ _)
    have hm : max m (zerosI h) = m := max_eq_left hh
    show maxI (max m (zerosI h)) t = m
    rw [hm]
    exact ih m (fun x hx => hall x (List.mem_cons_of_mem _ hx))

theorem zerosI_le_maxI (l : List Submission) :
    ∀ (m : Int) (x : Submission), x ∈ l → zerosI x ≤ maxI m l := by
  induction l with
  | nil => intro m x hx; exact absurd hx (List.not_mem_nil x)
  | cons h t ih =>
    intro m x hx
    rcases List.mem_cons.mp hx with heq | hmem
    · subst heq
      have h1 : zerosI x ≤ max m (zerosI x) := le_max_right _ _
      exact h1.trans (le_maxI t _)
    · exact ih (max m (zerosI h)) x hmem

theorem foldl_winnerStep_all_le (l : List Submission) :
    ∀ (o : Option Submission) (m : Int), (∀ x ∈ l, zerosI x ≤ m) →
      l.foldl winnerStep (o, m) = (o, m) := by
  induction l with
  | nil => intro o m _; rfl
  | cons h t ih =>
    intro o m hall
    have hh : zerosI h ≤ m := hall h (List.mem_cons_self _ _)
    have hstep : winnerStep (o, m) h = (o, m) := by
      simp [winnerStep, not_lt.mpr hh]
    show t.foldl winnerStep (winnerStep (o, m) h) = (o, m)
    rw [hstep]
    exact ih o m (fun x hx => hall x (List.mem_cons_of_mem _ hx))

theorem foldl_winnerStep_exists_gt (l : List Submission) :
    ∀ (o : Option Submission) (m : Int), (∃ x ∈ l, m < zerosI x) →
      l.foldl winnerStep (o, m) =
        (l.find? (fun h => zerosI h == maxI m l), maxI m l) := by
  induction l with
  | nil => intro o m hex; exact absurd hex (by simp)
  | cons h t ih =>
    intro o m hex
    show t.foldl winnerStep (winnerStep (o, m) h) = _
    by_cases hgt : m < zerosI h
    · have hstep : winnerStep (o, m) h = (some h, zerosI h) := by
        simp [winnerStep, hgt]
      have hmax : max m (zerosI h) = zerosI h := max_eq_right hgt.le
      have hml : maxI m (h :: t) = maxI (zerosI h) t := by
        show maxI (max m (zerosI h)) t = _
        rw [hmax]
      rw [hstep]
      by_cases hall : ∀ x ∈ t, zerosI x ≤ zerosI h
      · have hfold := foldl_winnerStep_all_le t (some h) (zerosI h) hall
        have hM : maxI m (h :: t) = zerosI h := by
          rw [hml]; exact maxI_of_all_le t _ hall
        have hfind : List.find? (fun x => zerosI x == maxI m (h :: t)) (h :: t) = some h := by
          have : (zerosI h == maxI m (h :: t)) = true := by
            rw [hM]; exact beq_self_eq_true _
          simp [List.find?, this]
        rw [hfold, hfind, hM]
      · push_neg at hall
        obtain ⟨y, hy, hylt⟩ := hall
        have hyM : zerosI h < maxI (zerosI h) t :=
          lt_of_lt_of_le hylt (zerosI_le_maxI t _ y hy)
        have hfold := ih (some h) (zerosI h) ⟨y, hy, hylt⟩
        have hne : (zerosI h == maxI m (h :: t)) = false := by
          rw [hml]
          exact beq_eq_false_iff_ne.mpr (ne_of_lt hyM)
        have hfind : List.find? (fun x => zerosI x == maxI m (h :: t)) (h :: t) =
            List.find? (fun x => zerosI x == maxI m (h :: t)) t := by
          simp [List.find?, hne]
        rw [hfold, hfind, hml]
    · have hle : zerosI h ≤ m := not_lt.mp hgt
      have hstep : winnerStep (o, m) h = (o, m) := by
        simp [winnerStep, not_lt.mpr hle]
      have hmax : max m (zerosI h) = m := max_eq_left hle
      have hml : maxI m (h :: t) = maxI m t := by
        show maxI (max m (zerosI h)) t = _
        rw [hmax]
      obtain ⟨y, hy, hylt⟩ := hex
      have hyt : y ∈ t := by
        rcases List.mem_cons.mp hy with heq | hmem
        · subst heq; exact absurd hylt (not_lt.mpr hle)
        · exact hmem
      have hfold := ih o m ⟨y, hyt, hylt⟩
      have hyM : m < maxI m t := lt_of_lt_of_le hylt (zerosI_le_maxI t _ y hyt)
      have hne : (zerosI h == maxI m (h :: t)) = false := by
        rw [hml]
        exact beq_eq_false_iff_ne.mpr (ne_of_lt (lt_of_le_of_lt hle hyM))
      have hfind : List.find? (fun x => zerosI x == maxI m (h :: t)) (h :: t) =
          List.find? (fun x => zerosI x == maxI m (h :: t)) t := by
        simp [List.find?, hne]
      rw [hstep, hfold, hfind, hml]

theorem findWinner_eq_specFirstMax (l : List Submission) :
    (findWinner l).1 = specFirstMaxWinner l := by
  cases l with
  | nil => rfl
  | cons h t =>
    have hex : ∃ x ∈ h :: t, (-1 : Int) < zerosI x :=
      ⟨h, List.mem_cons_self _ _, by
        have : (0 : Int) ≤ zerosI h := Int.natCast_nonneg _
        omega⟩
    have := foldl_winnerStep_exists_gt (h :: t) none (-1) hex
    show ((h :: t).foldl winnerStep (none, -1)).1 = _
    rw [this]
    rfl

/-- The tie-break example sequence: leading-zero counts 2, 5, 5, 3 in
timestamp order. -/
def tieExample : List Submission :=
  [⟨"p0", some "A", "00a", 1, 1⟩, ⟨"p1", some "B", "00000a", 2, 1⟩,
   ⟨"p2", some "C", "00000b", 3, 1⟩, ⟨"p3", some "D", "000a", 4, 1⟩]

/-- Claim C1: the winner computed at round end is the result of a single
scan of the timestamp-sorted sequence tracking the maximum leading-zero
count, which equals the first submission reaching the overall maximum
count, so ties favor the earliest; for counts [2, 5, 5, 3] the winner is
the submission at index 1. -/
theorem endGame_winner_scan :
    (∀ l : List Submission, (findWinner l).1 = specFirstMaxWinner l)
    ∧ (∀ st : GameState, (endGame st).2 =
        [Event.gameEnd ((findWinner (sortByTimestamp st.hashes)).1.map
          (fun w => winnerInfo st.players w (findWinner (sortByTimestamp st.hashes)).2))
         (sortByTimestamp st.hashes)])
    ∧ tieExample.map (fun s => countLeadingZeros s.hash) = [2, 5, 5, 3]
    ∧ (findWinner tieExample).1 = some (tieExample.get ⟨1, by decide⟩) :=
  ⟨findWinner_eq_specFirstMax, fun _ => rfl, by decide, by decide⟩

/-- Claim C2: `countLeadingZeros` returns the index of the first
character different from the zero character, or the full length when
every character is the zero character; the result is at most the
string's length; examples. -/
theorem countLeadingZeros_spec :
    (∀ s : String, countLeadingZeros s = s.data.findIdx (fun c => c != '0'))
    ∧ (∀ s : String, countLeadingZeros s ≤ s.length)
    ∧ countLeadingZeros "0003ab" = 3
    ∧ countLeadingZeros "000000" = 6
    ∧ countLeadingZeros "abc" = 0 := by
  have hfind : ∀ s : String, countLeadingZeros s = s.data.findIdx (fun c => c != '0') := by
    intro s
    simpa using countLeadingZerosAux_eq s.data 0
  refine ⟨hfind, fun s => ?_, by decide, by decide, by decide⟩
  rw [hfind s]
  exact List.findIdx_le_length _

/-- Claim C3: a `tap` while no round is active is a silent no-op: the
state is returned unchanged and no event is emitted. -/
theorem submitTap_inactive (st : GameState) (pid : String) (tc now : Nat)
    (f : String → String) (h : st.isActive = false) :
    submitTap st pid tc now f = (st, []) := by
  simp [submitTap, h]

theorem submitTap_inactive_witness :
    submitTap ⟨false, [("a", "Alice")], [], some 3⟩ "b" 1 2 (fun s => s) =
      (⟨false, [("a", "Alice")], [], some 3⟩, []) :=
  submitTap_inactive _ _ _ _ _ rfl

/-- Claim C4: `endGame` re-orders the submission sequence by timestamp
ascending with a stable sort (a pair of entries with equal timestamps
keeps its insertion order) before the winner scan, and the sequence it
broadcasts as `allHashes` is a permutation of the appended submissions. -/
theorem endGame_sorts_stable (st : GameState) :
    ((endGame st).1.hashes).Perm st.hashes
    ∧ List.Sorted (fun x y : Submission => x.timestamp ≤ y.timestamp) (endGame st).1.hashes
    ∧ (∀ a b : Submission, List.Sublist [a, b] st.hashes → a.timestamp = b.timestamp →
        List.Sublist [a, b] ((endGame st).1.hashes))
    ∧ (endGame st).2 = [Event.gameEnd ((findWinner (endGame st).1.hashes).1.map
        (fun w => winnerInfo st.players w (findWinner (endGame st).1.hashes).2))
        (endGame st).1.hashes] := by
  have hh : (endGame st).1.hashes = sortByTimestamp st.hashes := rfl
  refine ⟨?_, ?_, ?_, rfl⟩
  · rw [hh]; exact List.perm_insertionSort _ _
  · rw [hh]; exact List.sorted_insertionSort _ _
  · intro a b hsub hts
    rw [hh]
    exact List.pair_sublist_insertionSort (le_of_eq hts) hsub

/-- A concrete out-of-timestamp-order state for the C4 witness. -/
def outOfOrderState : GameState :=
  ⟨true, [], [⟨"c", none, "00x", 9, 3⟩, ⟨"a", none, "0x", 5, 1⟩, ⟨"b", none, "x", 5, 2⟩],
   some 0⟩

theorem endGame_sorts_stable_witness :
    ((endGame outOfOrderState).1.hashes).Perm outOfOrderState.hashes
    ∧ List.Sorted (fun x y : Submission => x.timestamp ≤ y.timestamp)
        (endGame outOfOrderState).1.hashes
    ∧ List.Sublist [⟨"a", none, "0x", 5, 1⟩, ⟨"b", none, "x", 5, 2⟩]
        ((endGame outOfOrderState).1.hashes)
    ∧ (endGame outOfOrderState).2 =
        [Event.gameEnd ((findWinner (endGame outOfOrderState).1.hashes).1.map
          (fun w => winnerInfo outOfOrderState.players w
            (findWinner (endGame outOfOrderState).1.hashes).2))
          (endGame outOfOrderState).1.hashes] :=
  have h := endGame_sorts_stable outOfOrderState
  ⟨h.1, h.2.1,
   h.2.2.1 ⟨"a", none, "0x", 5, 1⟩ ⟨"b", none, "x", 5, 2⟩
     (List.Sublist.cons _ (List.Sublist.refl _)) rfl,
   h.2.2.2⟩

theorem mapDelete_not_mem (m : List (String × String)) (key : String)
    (h : key ∉ m.map Prod.fst) : mapDelete m key = m := by
  induction m with
  | nil => rfl
  | cons p rest ih =>
    obtain ⟨k, v⟩ := p
    simp only [List.map_cons, List.mem_cons] at h
    push_neg at h
    obtain ⟨h1, h2⟩ := h
    simp only [mapDelete]
    rw [if_neg (fun hk => h1 hk.symm), ih h2]

theorem not_mem_keys_mapDelete (m : List (String × String)) (key : String)
    (hnd : (m.map Prod.fst).Nodup) : key ∉ (mapDelete m key).map Prod.fst := by
  induction m with
  | nil => simp [mapDelete]
  | cons p rest ih =>
    obtain ⟨k, v⟩ := p
    simp only [List.map_cons, List.nodup_cons] at hnd
    obtain ⟨hk, hrest⟩ := hnd
    by_cases hkey : k = key
    · subst hkey
      simpa [mapDelete] using hk
    · simp only [mapDelete, if_neg hkey, List.map_cons, List.mem_cons]
      push_neg
      exact ⟨fun he => hkey he.symm, ih hrest⟩

theorem mapDelete_length (m : List (String × String)) (key : String) :
    key ∈ m.map Prod.fst → (mapDelete m key).length + 1 = m.length := by
  induction m with
  | nil => intro h; simp at h
  | cons p rest ih =>
    intro h
    obtain ⟨k, v⟩ := p
    by_cases hkey : k = key
    · simp [mapDelete, hkey]
    · simp only [List.map_cons, List.mem_cons] at h
      rcases h with heq | hmem
      · exact absurd heq.symm hkey
      · simp only [mapDelete, if_neg hkey, List.length_cons]
        rw [← ih hmem]

/-- Claim C5 counterexample: `startNewGame` invoked on a state with the
active flag set is not a no-op: it clears the roster of the round in
progress and broadcasts a fresh `gameStart`. -/
theorem startNewGame_unguarded_cex :
    (⟨true, [("a", "Alice")], [], some 5⟩ : GameState).isActive = true
    ∧ (startNewGame ⟨true, [("a", "Alice")], [], some 5⟩ 100).1.players = []
    ∧ (startNewGame ⟨true, [("a", "Alice")], [], some 5⟩ 100).1 ≠
        ⟨true, [("a", "Alice")], [], some 5⟩
    ∧ (startNewGame ⟨true, [("a", "Alice")], [], some 5⟩ 100).2 = [Event.gameStart 100] := by
  refine ⟨rfl, rfl, ?_, rfl⟩
  decide

/-- Claim C5 (amended): `startNewGame` has no re-entrancy guard: even
when invoked while a round is active it unconditionally resets the
singleton round state (clears the roster and the submission sequence,
stamps a new start time, keeps the active flag true) and broadcasts
`gameStart`; no second round record is created because the round state
is a single shared record. -/
theorem startNewGame_resets (st : GameState) (now : Nat) (_h : st.isActive = true) :
    startNewGame st now = (⟨true, [], [], some now⟩, [Event.gameStart now]) := rfl

theorem startNewGame_resets_witness :
    startNewGame ⟨true, [("b", "Bob")], [], some 7⟩ 42 =
      (⟨true, [], [], some 42⟩, [Event.gameStart 42]) :=
  startNewGame_resets ⟨true, [("b", "Bob")], [], some 7⟩ 42 rfl

/-- Claim C6: a round ending with zero submissions broadcasts `gameEnd`
with the absent-winner marker and an empty `allHashes` sequence. -/
theorem endGame_empty (st : GameState) (h : st.hashes = []) :
    (endGame st).2 = [Event.gameEnd none []] ∧ (endGame st).1.hashes = [] := by
  simp [endGame, h, sortByTimestamp, findWinner]

theorem endGame_empty_witness :
    (endGame ⟨true, [("a", "Alice")], [], some 0⟩).2 = [Event.gameEnd none []]
    ∧ (endGame ⟨true, [("a", "Alice")], [], some 0⟩).1.hashes = [] :=
  endGame_empty ⟨true, [("a", "Alice")], [], some 0⟩ rfl

/-- Claim C7 counterexample: a submission was recorded while the roster
bound "p1" to "Alice" (so the cached name in the entry is "Alice"), then
the roster entry was overwritten to "Bob"; at round end the `gameEnd`
winner carries "Bob" — the live roster lookup — not the cached "Alice". -/
theorem gameEnd_winner_name_live_cex :
    ((⟨false, [("p1", "Bob")], [⟨"p1", some "Alice", "0abc", 10, 1⟩], some 0⟩ :
        GameState).hashes.map (fun s => s.playerName)) = [some "Alice"]
    ∧ (endGame ⟨false, [("p1", "Bob")], [⟨"p1", some "Alice", "0abc", 10, 1⟩], some 0⟩).2 =
        [Event.gameEnd (some ⟨"p1", some "Bob", "0abc", 1⟩)
          [⟨"p1", some "Alice", "0abc", 10, 1⟩]]
    ∧ (some "Bob" : Option String) ≠ some "Alice" := by
  refine ⟨rfl, rfl, by decide⟩

/-- Claim C7 (amended): the display name in the `gameEnd` winner object
is looked up live in the roster at round end, so a later roster
overwrite changes the reported name and a roster removal makes it
absent; the cached per-submission names are preserved unchanged in the
`allHashes` sequence, and the winning submission itself stays eligible
regardless of the roster. -/
theorem gameEnd_winner_name_is_live_lookup (st : GameState) (w : Submission) (z : Int)
    (h : findWinner (sortByTimestamp st.hashes) = (some w, z)) :
    (endGame st).2 = [Event.gameEnd
        (some ⟨w.playerId, mapGet st.players w.playerId, w.hash, z⟩)
        (sortByTimestamp st.hashes)]
    ∧ (endGame st).1.hashes = sortByTimestamp st.hashes := by
  refine ⟨?_, rfl⟩
  show [Event.gameEnd ((findWinner (sortByTimestamp st.hashes)).1.map
      (fun x => winnerInfo st.players x (findWinner (sortByTimestamp st.hashes)).2))
      (sortByTimestamp st.hashes)] = _
  rw [h]
  rfl

theorem gameEnd_winner_name_live_witness :
    (endGame ⟨false, [("q", "Carol")], [⟨"q", none, "00z", 4, 2⟩], some 1⟩).2 =
      [Event.gameEnd (some ⟨"q", some "Carol", "00z", 2⟩) [⟨"q", none, "00z", 4, 2⟩]]
    ∧ (endGame ⟨false, [("q", "Carol")], [⟨"q", none, "00z", 4, 2⟩], some 1⟩).1.hashes =
        [⟨"q", none, "00z", 4, 2⟩] :=
  gameEnd_winner_name_is_live_lookup ⟨false, [("q", "Carol")], [⟨"q", none, "00z", 4, 2⟩], some 1⟩
    ⟨"q", none, "00z", 4, 2⟩ 2 (by decide)

/-- Claim C8 counterexample: removing the same identity twice in a row
emits a `playerLeft` broadcast on the second call as well — the `close`
handler broadcasts unconditionally — contradicting the claim that the
second call emits no further broadcast. -/
theorem removePlayer_second_broadcast_cex :
    (removePlayer ⟨false, [("a", "Alice")], [], none⟩ "a").2 = [Event.playerLeft "a" 0]
    ∧ (removePlayer (removePlayer ⟨false, [("a", "Alice")], [], none⟩ "a").1 "a").2 =
        [Event.playerLeft "a" 0]
    ∧ (removePlayer (removePlayer ⟨false, [("a", "Alice")], [], none⟩ "a").1 "a").2 ≠ [] := by
  refine ⟨rfl, rfl, by decide⟩

/-- Claim C8 (amended): removal is idempotent on the roster — with
unique roster keys the second call changes nothing, and the first call
decrements the count when the identity was present — but every call
(including the second) emits one `playerLeft` broadcast, the second one
repeating the already-decremented count. -/
theorem removePlayer_idempotent_but_rebroadcasts (st : GameState) (pid : String)
    (hnd : (st.players.map Prod.fst).Nodup) :
    (removePlayer (removePlayer st pid).1 pid).1 = (removePlayer st pid).1
    ∧ (removePlayer st pid).2 = [Event.playerLeft pid (mapDelete st.players pid).length]
    ∧ (removePlayer (removePlayer st pid).1 pid).2 =
        [Event.playerLeft pid (mapDelete st.players pid).length]
    ∧ (pid ∈ st.players.map Prod.fst →
        (mapDelete st.players pid).length + 1 = st.players.length) := by
  have hdel : mapDelete (mapDelete st.players pid) pid = mapDelete st.players pid :=
    mapDelete_not_mem _ _ (not_mem_keys_mapDelete _ _ hnd)
  refine ⟨?_, rfl, ?_, mapDelete_length st.players pid⟩
  · show ({ (removePlayer st pid).1 with
        players := mapDelete (mapDelete st.players pid) pid } : GameState) = _
    rw [hdel]
    rfl
  · show [Event.playerLeft pid (mapDelete (mapDelete st.players pid) pid).length] = _
    rw [hdel]

theorem removePlayer_idempotent_witness :
    (removePlayer (removePlayer ⟨false, [("a", "Alice"), ("b", "Bob")], [], none⟩ "a").1 "a").1 =
      (removePlayer ⟨false, [("a", "Alice"), ("b", "Bob")], [], none⟩ "a").1
    ∧ (removePlayer ⟨false, [("a", "Alice"), ("b", "Bob")], [], none⟩ "a").2 =
        [Event.playerLeft "a" 1]
    ∧ (removePlayer (removePlayer ⟨false, [("a", "Alice"), ("b", "Bob")], [], none⟩ "a").1 "a").2 =
        [Event.playerLeft "a" 1]
    ∧ ("a" ∈ ([("a", "Alice"), ("b", "Bob")] : List (String × String)).map Prod.fst →
        (mapDelete [("a", "Alice"), ("b", "Bob")] "a").length + 1 =
          ([("a", "Alice"), ("b", "Bob")] : List (String × String)).length) :=
  removePlayer_idempotent_but_rebroadcasts
    ⟨false, [("a", "Alice"), ("b", "Bob")], [], none⟩ "a" (by decide)

/-- Claim C9: a tap from a connection identity that never joined (no
roster entry) while a round is active still appends a submission and
broadcasts `newHash`, with the display name absent in both because the
roster lookup misses; the submission is in the sequence `endGame`
scores, so it remains eligible for winner computation. -/
theorem submitTap_without_join (st : GameState) (pid : String) (tc now : Nat)
    (f : String → String) (hact : st.isActive = true)
    (hmiss : mapGet st.players pid = none) :
    (submitTap st pid tc now f).1 = { st with hashes := st.hashes ++
        [⟨pid, none, f (pid ++ toString now ++ toString tc), now, tc⟩] }
    ∧ (submitTap st pid tc now f).2 =
        [Event.newHash pid none (f (pid ++ toString now ++ toString tc))
          (countLeadingZeros (f (pid ++ toString now ++ toString tc)))]
    ∧ (⟨pid, none, f (pid ++ toString now ++ toString tc), now, tc⟩ : Submission) ∈
        (endGame (submitTap st pid tc now f).1).1.hashes := by
  have h1 : (submitTap st pid tc now f).1 = { st with hashes := st.hashes ++
      [⟨pid, none, f (pid ++ toString now ++ toString tc), now, tc⟩] } := by
    simp [submitTap, hact, hmiss]
  have h2 : (submitTap st pid tc now f).2 =
      [Event.newHash pid none (f (pid ++ toString now ++ toString tc))
        (countLeadingZeros (f (pid ++ toString now ++ toString tc)))] := by
    simp [submitTap, hact, hmiss]
  refine ⟨h1, h2, ?_⟩
  show _ ∈ sortByTimestamp (submitTap st pid tc now f).1.hashes
  rw [h1]
  exact (List.perm_insertionSort _ _).mem_iff.mpr
    (List.mem_append_right _ (List.mem_singleton.mpr rfl))

theorem submitTap_without_join_witness :
    (submitTap ⟨true, [("a", "Alice")], [], some 0⟩ "ghost" 3 7 (fun _ => "0ab")).1 =
      ⟨true, [("a", "Alice")], [⟨"ghost", none, "0ab", 7, 3⟩], some 0⟩
    ∧ (submitTap ⟨true, [("a", "Alice")], [], some 0⟩ "ghost" 3 7 (fun _ => "0ab")).2 =
        [Event.newHash "ghost" none "0ab" 1]
    ∧ (⟨"ghost", none, "0ab", 7, 3⟩ : Submission) ∈
        (endGame (submitTap ⟨true, [("a", "Alice")], [], some 0⟩ "ghost" 3 7
          (fun _ => "0ab")).1).1.hashes :=
  submitTap_without_join ⟨true, [("a", "Alice")], [], some 0⟩ "ghost" 3 7
    (fun _ => "0ab") rfl (by decide)

/-- Claim C10: `endGame` leaves the roster and the start time untouched
and neither adds nor removes submissions (the sequence is only
permuted); it clears only the active flag; the roster and the
submission sequence are cleared by the subsequent `startNewGame`. -/
theorem endGame_frame (st : GameState) (now : Nat) :
    (endGame st).1.players = st.players
    ∧ (endGame st).1.startTime = st.startTime
    ∧ (endGame st).1.isActive = false
    ∧ ((endGame st).1.hashes).Perm st.hashes
    ∧ (startNewGame (endGame st).1 now).1.players = []
    ∧ (startNewGame (endGame st).1 now).1.hashes = [] :=
  ⟨rfl, rfl, rfl, List.perm_insertionSort _ _, rfl, rfl⟩

end TapMiner
